import Mathlib

/-!
Shallow embedding of `src/conjgrad/solve.go` (package `conjgrad` of
num-analysis): the conjugate-gradient solver `SolveStoppable` with its
wrappers `SolvePrec` and `Solve`, and the helpers `allZero` and
`greatestValue`.  Vectors are modelled over exact rationals; the
cancellation channel is modelled as a boolean signal polled at the end
of iteration `i`.
-/

namespace Conjgrad

/-- Modelled from the spec: `linalg.Vector` (package `linalg`, not under
`src/`) is an ordered fixed-length sequence of real values; we use exact
rationals for ideal arithmetic. -/
abbrev Vec := List ℚ

/-- Modelled from the spec: in-place scale-by-scalar (`Vector.Scale`). -/
def vscale (s : ℚ) (v : Vec) : Vec := v.map (fun x => s * x)

/-- Modelled from the spec: element-wise accumulate (`Vector.Add`). -/
def vadd (a b : Vec) : Vec := List.zipWith (· + ·) a b

/-- Modelled from the spec: dot product (`Vector.Dot`), sum of
element-wise products. -/
def vdot (a b : Vec) : ℚ := (List.zipWith (· * ·) a b).sum

/-- Element-wise difference, used to state the residual invariant
`residual = b − T·solution`. -/
def vsub (a b : Vec) : Vec := List.zipWith (· - ·) a b

/-- The zero vector of length `n` (`make(linalg.Vector, n)`). -/
def zeroVec (n : ℕ) : Vec := List.replicate n 0

/-- Modelled from the spec: `LinTran` (declared in `lintran.go`, not under
`src/`) reports a fixed dimension and applies the operator to a vector. -/
structure LinTran where
  dim : ℕ
  apply : Vec → Vec

/-- Linearity and length preservation of an operator on vectors of its
dimension — the "linear operator" hypothesis of the ideal-arithmetic
invariant. -/
def IsLinear (t : LinTran) : Prop :=
  (∀ v : Vec, v.length = t.dim → (t.apply v).length = t.dim) ∧
  (∀ u v : Vec, u.length = t.dim → v.length = t.dim →
      t.apply (vadd u v) = vadd (t.apply u) (t.apply v)) ∧
  (∀ (c : ℚ) (v : Vec), v.length = t.dim →
      t.apply (vscale c v) = vscale c (t.apply v))

/-- `const residualUpdateFrequency = 20` from `solve.go`. -/
def residualUpdateFrequency : ℕ := 20

/-- `func allZero(v linalg.Vector) bool` from `solve.go`. -/
def allZero (v : Vec) : Bool := v.all (fun x => decide (x = 0))

/-- `func greatestValue(v linalg.Vector) float64` from `solve.go`:
`max` of the absolute values, folded from `0`. -/
def greatestValue (v : Vec) : ℚ := v.foldl (fun m x => max m |x|) 0

/-- The local variables of `SolveStoppable` that persist across loop
iterations. -/
structure CGState where
  residual : Vec
  conjVec : Vec
  solution : Vec
  lastResidualDot : ℚ
deriving DecidableEq

/-- How the loop body of `SolveStoppable` exits (the spec's four
termination paths; `capReached` is the `for` condition `i < t.Dim()`
failing). -/
inductive ExitReason where
  | converged
  | degenerate
  | cancelled
  | capReached
deriving DecidableEq

/-- Outcome of one pass through the loop body before the cancellation
poll: either an early `break` returning the reason and current solution,
or the updated state. -/
inductive StepResult where
  | done (reason : ExitReason) (solution : Vec)
  | next (st : CGState)
deriving DecidableEq

/-- The search-direction update of `SolveStoppable` (lines 39-47 of
`solve.go`): returns the new `conjVec` and the new `lastResidualDot`.
At `i = 0`, `conjVec = residual.Copy()` and
`lastResidualDot = conjVec·conjVec`; otherwise `projAmount = -residualDot
/ lastResidualDot` and `conjVec = residual.Copy().Add(conjVec.Scale(-projAmount))`. -/
def updateDirection (i : ℕ) (st : CGState) : Vec × ℚ :=
  if i = 0 then
    (st.residual, vdot st.residual st.residual)
  else
    let residualDot := vdot st.residual st.residual
    let projAmount := -residualDot / st.lastResidualDot
    (vadd st.residual (vscale (-projAmount) st.conjVec), residualDot)

/-- One pass through the loop body of `SolveStoppable` (lines 36-58 of
`solve.go`) at loop index `i`, before the cancellation poll. -/
def cgStep (t : LinTran) (b : Vec) (prec : ℚ) (i : ℕ) (st : CGState) :
    StepResult :=
  if greatestValue st.residual ≤ prec then
    .done .converged st.solution
  else
    let dir := updateDirection i st
    let conjVec := dir.1
    let lastResidualDot := dir.2
    if allZero conjVec then
      .done .degenerate st.solution
    else
      let optimalDistance := vdot conjVec st.residual / vdot conjVec (t.apply conjVec)
      let solution := vadd st.solution (vscale optimalDistance conjVec)
      let residual :=
        if i ≠ 0 ∧ i % residualUpdateFrequency = 0 then
          vadd (vscale (-1) (t.apply solution)) b
        else
          vadd st.residual (vscale (-optimalDistance) (t.apply conjVec))
      .next ⟨residual, conjVec, solution, lastResidualDot⟩

/-- The `for` loop of `SolveStoppable`: `i` is the loop index, `fuel` the
remaining iterations (`t.Dim() - i`), and `cancel i` tells whether the
`select` at the end of iteration `i` observes the closed channel. -/
def solveLoop (t : LinTran) (b : Vec) (prec : ℚ) (cancel : ℕ → Bool) :
    ℕ → ℕ → CGState → Vec
  | _, 0, st => st.solution
  | i, fuel + 1, st =>
    match cgStep t b prec i st with
    | .done _ s => s
    | .next st' =>
      if cancel i then st'.solution
      else solveLoop t b prec cancel (i + 1) fuel st'

/-- The state at entry to the loop: `residual = b.Copy()`,
`solution = make(linalg.Vector, t.Dim())`, `conjVec` and
`lastResidualDot` not yet initialized (zero values). -/
def initState (t : LinTran) (b : Vec) : CGState :=
  ⟨b, [], zeroVec t.dim, 0⟩

/-- `func SolveStoppable` from `solve.go`. -/
def SolveStoppable (t : LinTran) (b : Vec) (prec : ℚ) (cancel : ℕ → Bool) :
    Vec :=
  solveLoop t b prec cancel 0 t.dim (initState t b)

/-- The never-ready cancellation signal: the `select` on a `nil` channel
always takes the `default` branch. -/
def neverCancel : ℕ → Bool := fun _ => false

/-- `func SolvePrec` from `solve.go`: `SolveStoppable` with a `nil`
cancellation channel. -/
def SolvePrec (t : LinTran) (b : Vec) (prec : ℚ) : Vec :=
  SolveStoppable t b prec neverCancel

/-- `func Solve` from `solve.go`: `SolvePrec` with `prec = 0`. -/
def Solve (t : LinTran) (b : Vec) : Vec :=
  SolvePrec t b 0

/-- Instrumented loop: additionally returns the number of fully executed
iterations and the exit reason.  A `break` at the top of an iteration
counts that iteration as not executed; a cancellation return counts the
just-finished iteration. -/
def solveLoopEx (t : LinTran) (b : Vec) (prec : ℚ) (cancel : ℕ → Bool) :
    ℕ → ℕ → CGState → Vec × ℕ × ExitReason
  | _, 0, st => (st.solution, 0, .capReached)
  | i, fuel + 1, st =>
    match cgStep t b prec i st with
    | .done r s => (s, 0, r)
    | .next st' =>
      if cancel i then (st'.solution, 1, .cancelled)
      else
        let rest := solveLoopEx t b prec cancel (i + 1) fuel st'
        (rest.1, rest.2.1 + 1, rest.2.2)

/-- Instrumented `SolveStoppable`. -/
def solveStoppableEx (t : LinTran) (b : Vec) (prec : ℚ)
    (cancel : ℕ → Bool) : Vec × ℕ × ExitReason :=
  solveLoopEx t b prec cancel 0 t.dim (initState t b)

/-- The states observed at the top of each executed loop iteration,
paired with the loop index. -/
def solveTrace (t : LinTran) (b : Vec) (prec : ℚ) (cancel : ℕ → Bool) :
    ℕ → ℕ → CGState → List (ℕ × CGState)
  | _, 0, _ => []
  | i, fuel + 1, st =>
    (i, st) ::
      match cgStep t b prec i st with
      | .done _ _ => []
      | .next st' =>
        if cancel i then [] else solveTrace t b prec cancel (i + 1) fuel st'

/-- The 2×2 identity operator, used in the concrete scenarios. -/
def id2 : LinTran := ⟨2, fun v => v⟩

/-- The diagonal operator `diag(2, 4)`, used as a concrete input. -/
def diag24 : LinTran := ⟨2, fun v => List.zipWith (· * ·) [2, 4] v⟩

/-! Unfolding equations for the loop functions. -/

theorem solveLoop_zero (t : LinTran) (b : Vec) (prec : ℚ) (cancel : ℕ → Bool)
    (i : ℕ) (st : CGState) :
    solveLoop t b prec cancel i 0 st = st.solution := rfl

theorem solveLoop_succ (t : LinTran) (b : Vec) (prec : ℚ) (cancel : ℕ → Bool)
    (i fuel : ℕ) (st : CGState) :
    solveLoop t b prec cancel i (fuel + 1) st =
      match cgStep t b prec i st with
      | .done _ s => s
      | .next st' =>
        if cancel i then st'.solution
        else solveLoop t b prec cancel (i + 1) fuel st' := rfl

theorem solveLoopEx_zero (t : LinTran) (b : Vec) (prec : ℚ) (cancel : ℕ → Bool)
    (i : ℕ) (st : CGState) :
    solveLoopEx t b prec cancel i 0 st = (st.solution, 0, .capReached) := rfl

theorem solveLoopEx_succ (t : LinTran) (b : Vec) (prec : ℚ) (cancel : ℕ → Bool)
    (i fuel : ℕ) (st : CGState) :
    solveLoopEx t b prec cancel i (fuel + 1) st =
      match cgStep t b prec i st with
      | .done r s => (s, 0, r)
      | .next st' =>
        if cancel i then (st'.solution, 1, .cancelled)
        else
          let rest := solveLoopEx t b prec cancel (i + 1) fuel st'
          (rest.1, rest.2.1 + 1, rest.2.2) := rfl

theorem solveTrace_zero (t : LinTran) (b : Vec) (prec : ℚ) (cancel : ℕ → Bool)
    (i : ℕ) (st : CGState) :
    solveTrace t b prec cancel i 0 st = [] := rfl

theorem solveTrace_succ (t : LinTran) (b : Vec) (prec : ℚ) (cancel : ℕ → Bool)
    (i fuel : ℕ) (st : CGState) :
    solveTrace t b prec cancel i (fuel + 1) st =
      (i, st) ::
        match cgStep t b prec i st with
        | .done _ _ => []
        | .next st' =>
          if cancel i then []
          else solveTrace t b prec cancel (i + 1) fuel st' := rfl

/-! Facts about the numeric helpers. -/

theorem allZero_iff (v : Vec) : allZero v = true ↔ ∀ x ∈ v, x = 0 := by
  simp [allZero, List.all_eq_true]

theorem foldl_max_abs_of_zeros (v : Vec) :
    ∀ acc : ℚ, 0 ≤ acc → (∀ x ∈ v, x = 0) →
      v.foldl (fun m x => max m |x|) acc = acc := by
  induction v with
  | nil => intro acc _ _; rfl
  | cons a v ih =>
    intro acc hacc hz
    have ha : a = 0 := hz a (by simp)
    have : max acc |a| = acc := by
      rw [ha]; simp [abs_of_nonneg, hacc]
    simp only [List.foldl_cons, this]
    exact ih acc hacc (fun x hx => hz x (by simp [hx]))

theorem greatestValue_of_zeros (v : Vec) (hz : ∀ x ∈ v, x = 0) :
    greatestValue v = 0 :=
  foldl_max_abs_of_zeros v 0 le_rfl hz

theorem zeroVec_mem (n : ℕ) : ∀ x ∈ zeroVec n, x = 0 := by
  intro x hx
  simpa [zeroVec] using (List.eq_of_mem_replicate hx)

theorem vdot_self_nonneg (v : Vec) : 0 ≤ vdot v v := by
  induction v with
  | nil => simp [vdot]
  | cons a v ih =>
    have := mul_self_nonneg a
    simp only [vdot, List.zipWith_cons_cons, List.sum_cons] at *
    linarith

theorem vdot_self_pos (v : Vec) (h : ∃ x ∈ v, x ≠ 0) : 0 < vdot v v := by
  induction v with
  | nil => simp at h
  | cons a v ih =>
    have hv := vdot_self_nonneg v
    simp only [vdot, List.zipWith_cons_cons, List.sum_cons] at hv ⊢
    rcases h with ⟨x, hx, hxne⟩
    rcases List.mem_cons.mp hx with rfl | hmem
    · have hpos : 0 < x * x := mul_self_pos.mpr hxne
      linarith
    · have hpos := ih ⟨x, hmem, hxne⟩
      simp only [vdot] at hpos
      nlinarith [mul_self_nonneg a]

/-! Relating the instrumented loop to the plain loop. -/

theorem cgStep_not_cancelled (t : LinTran) (b : Vec) (prec : ℚ) (i : ℕ)
    (st : CGState) (s : Vec) :
    cgStep t b prec i st ≠ .done .cancelled s := by
  simp only [cgStep]
  split
  · simp
  · split
    · simp
    · simp

theorem solveLoopEx_fst (t : LinTran) (b : Vec) (prec : ℚ) (cancel : ℕ → Bool) :
    ∀ (fuel i : ℕ) (st : CGState),
      (solveLoopEx t b prec cancel i fuel st).1 =
        solveLoop t b prec cancel i fuel st := by
  intro fuel
  induction fuel with
  | zero => intro i st; rfl
  | succ n ih =>
    intro i st
    rw [solveLoopEx_succ, solveLoop_succ]
    cases hs : cgStep t b prec i st with
    | done r s => rfl
    | next st' =>
      by_cases hc : cancel i
      · simp [hc]
      · simp [hc, ih]

theorem solveLoopEx_count_le (t : LinTran) (b : Vec) (prec : ℚ)
    (cancel : ℕ → Bool) :
    ∀ (fuel i : ℕ) (st : CGState),
      (solveLoopEx t b prec cancel i fuel st).2.1 ≤ fuel := by
  intro fuel
  induction fuel with
  | zero => intro i st; simp [solveLoopEx_zero]
  | succ n ih =>
    intro i st
    rw [solveLoopEx_succ]
    cases hs : cgStep t b prec i st with
    | done r s => simp
    | next st' =>
      by_cases hc : cancel i
      · simp [hc]
      · have := ih (i + 1) st'
        simp only [hc]
        simpa using Nat.add_le_add_right this 1

theorem solveLoopEx_never_cancelled (t : LinTran) (b : Vec) (prec : ℚ) :
    ∀ (fuel i : ℕ) (st : CGState),
      (solveLoopEx t b prec neverCancel i fuel st).2.2 ≠ .cancelled := by
  intro fuel
  induction fuel with
  | zero => intro i st; simp [solveLoopEx_zero]
  | succ n ih =>
    intro i st
    rw [solveLoopEx_succ]
    cases hs : cgStep t b prec i st with
    | done r s =>
      have : r ≠ .cancelled := by
        intro hr
        exact cgStep_not_cancelled t b prec i st s (hr ▸ hs)
      simpa using this
    | next st' =>
      simpa [neverCancel] using ih (i + 1) st'

/-- C5: the loop of `SolveStoppable` executes at most `t.dim` full
iterations, and the result is the solution reported by the instrumented
loop, which always returns the current solution through exactly one of
the four exit reasons (converged, degenerate, cancelled, cap reached)
without signaling any error. -/
theorem cg_termination_bound (t : LinTran) (b : Vec) (prec : ℚ)
    (cancel : ℕ → Bool) :
    SolveStoppable t b prec cancel = (solveStoppableEx t b prec cancel).1 ∧
    (solveStoppableEx t b prec cancel).2.1 ≤ t.dim :=
  ⟨(solveLoopEx_fst t b prec cancel t.dim 0 (initState t b)).symm,
   solveLoopEx_count_le t b prec cancel t.dim 0 (initState t b)⟩

/-- C6: `SolvePrec t b prec` is exactly `SolveStoppable` run with the
never-firing cancellation signal (the `nil` channel, whose receive is
never ready), `Solve t b` is exactly `SolvePrec t b 0`, and a run with
the never-firing signal never exits through the cancellation path. -/
theorem cg_wrappers_equiv (t : LinTran) (b : Vec) (prec : ℚ) :
    SolvePrec t b prec = SolveStoppable t b prec neverCancel ∧
    Solve t b = SolvePrec t b 0 ∧
    (solveStoppableEx t b prec neverCancel).2.2 ≠ ExitReason.cancelled :=
  ⟨rfl, rfl, solveLoopEx_never_cancelled t b prec t.dim 0 (initState t b)⟩

/-- C8: for the 2×2 identity operator and `b = [3, 4]`, `Solve` returns
`[3, 4]` exactly, in exactly one full iteration, exiting through the
convergence check; the trace shows the first iteration took
`conjVec = [3, 4]`, step size `1`, `solution = [3, 4]` and
`residual = [0, 0]`, and the convergence check stopped the loop at the
start of the second iteration. -/
theorem cg_scenario_identity2 :
    Solve id2 [3, 4] = [3, 4] ∧
    (solveStoppableEx id2 [3, 4] 0 neverCancel).2.1 = 1 ∧
    (solveStoppableEx id2 [3, 4] 0 neverCancel).2.2 = ExitReason.converged ∧
    solveTrace id2 [3, 4] 0 neverCancel 0 id2.dim (initState id2 [3, 4]) =
      [(0, ⟨[3, 4], [], [0, 0], 0⟩), (1, ⟨[0, 0], [3, 4], [3, 4], 25⟩)] ∧
    vdot [3, 4] [3, 4] / vdot [3, 4] (id2.apply [3, 4]) = 1 := by
  refine ⟨?_, ?_, ?_, ?_, ?_⟩ <;>
    norm_num [Solve, SolvePrec, SolveStoppable, solveStoppableEx, solveTrace,
      initState, id2, solveLoop, solveLoopEx, cgStep, updateDirection,
      greatestValue, allZero, vdot, vadd, vscale, zeroVec, neverCancel,
      residualUpdateFrequency, List.replicate_succ]

/-- C1 counterexample: in the run of `SolveStoppable` on `T = diag(2, 4)`,
`b = [4, 8]`, `prec = 0`, the state at the top of iteration `1` has
`residual = [16/9, -8/9]`, `conjVec = [4, 8]`, `lastResidualDot = 80`,
and the code's new search direction differs from
`residual + beta · conjVec` with `beta = -residualDot / lastResidualDot`:
the code computes `[160/81, -40/81]`, the claimed formula `[128/81, -104/81]`. -/
theorem cg_direction_update_counterexample :
    solveTrace diag24 [4, 8] 0 neverCancel 0 diag24.dim (initState diag24 [4, 8]) =
      [(0, ⟨[4, 8], [], [0, 0], 0⟩),
       (1, ⟨[16/9, -8/9], [4, 8], [10/9, 20/9], 80⟩)] ∧
    (updateDirection 1 ⟨[16/9, -8/9], [4, 8], [10/9, 20/9], 80⟩).1 ≠
      vadd ([16/9, -8/9] : Vec)
        (vscale (-(vdot ([16/9, -8/9] : Vec) [16/9, -8/9]) / 80) [4, 8]) := by
  constructor
  · norm_num [solveTrace, initState, diag24, cgStep, updateDirection,
      greatestValue, allZero, vdot, vadd, vscale, zeroVec, neverCancel,
      residualUpdateFrequency, List.replicate_succ]
  · norm_num [updateDirection, vdot, vadd, vscale]

/-- C1 amended: for every iteration after the first, the search-direction
update computes `residualDot = residual·residual`, sets
`lastResidualDot = residualDot`, and sets the new `conjVec` to
`residual − beta · conjVec` where `beta = -residualDot / lastResidualDot`
uses the previous `lastResidualDot` — equivalently, to `residual +
(residualDot / lastResidualDot) · conjVec` — with `conjVec` on the
right-hand side the previous direction and `residual` left unchanged. -/
theorem cg_direction_update_amended (i : ℕ) (st : CGState) (h : i ≠ 0) :
    updateDirection i st =
      (vadd st.residual
        (vscale (-(-(vdot st.residual st.residual) / st.lastResidualDot))
          st.conjVec),
       vdot st.residual st.residual) ∧
    updateDirection i st =
      (vadd st.residual
        (vscale (vdot st.residual st.residual / st.lastResidualDot) st.conjVec),
       vdot st.residual st.residual) := by
  constructor
  · simp [updateDirection, h]
  · simp [updateDirection, h, neg_div]

/-- Witness for the amended C1 at iteration `1` of the `diag(2, 4)` run. -/
theorem cg_direction_update_amended_witness :
    (1 : ℕ) ≠ 0 ∧
    updateDirection 1 ⟨[16/9, -8/9], [4, 8], [10/9, 20/9], 80⟩ =
      (vadd ([16/9, -8/9] : Vec)
        (vscale (vdot ([16/9, -8/9] : Vec) [16/9, -8/9] / 80) [4, 8]),
       vdot ([16/9, -8/9] : Vec) [16/9, -8/9]) :=
  ⟨one_ne_zero,
   (cg_direction_update_amended 1 ⟨[16/9, -8/9], [4, 8], [10/9, 20/9], 80⟩
      one_ne_zero).2⟩

theorem solveLoop_of_converged (t : LinTran) (b : Vec) (prec : ℚ)
    (cancel : ℕ → Bool) (i fuel : ℕ) (st : CGState)
    (h : greatestValue st.residual ≤ prec) :
    solveLoop t b prec cancel i fuel st = st.solution := by
  cases fuel with
  | zero => rfl
  | succ n => rw [solveLoop_succ]; simp [cgStep, h]

/-- C3: at the top of every iteration `SolveStoppable` checks whether the
maximum absolute residual entry is at most `prec` and, if so, returns the
current solution; in particular, whenever `greatestValue b ≤ prec` the
zero vector is returned immediately, and `Solve` on a zero right-hand
side returns the zero vector. -/
theorem cg_convergence_check_zero_rhs (t : LinTran) (b : Vec) (prec : ℚ)
    (cancel : ℕ → Bool) :
    (greatestValue b ≤ prec → SolveStoppable t b prec cancel = zeroVec t.dim) ∧
    Solve t (zeroVec t.dim) = zeroVec t.dim := by
  constructor
  · intro h
    exact solveLoop_of_converged t b prec cancel 0 t.dim (initState t b) h
  · have hz : greatestValue (zeroVec t.dim) ≤ 0 :=
      le_of_eq (greatestValue_of_zeros _ (zeroVec_mem t.dim))
    exact solveLoop_of_converged t (zeroVec t.dim) 0 neverCancel 0 t.dim
      (initState t (zeroVec t.dim)) hz

/-- Witness for C3 at `T = id2`, `b = [1, 1]`, `prec = 2`. -/
theorem cg_convergence_check_zero_rhs_witness :
    greatestValue ([1, 1] : Vec) ≤ 2 ∧
    SolveStoppable id2 [1, 1] 2 neverCancel = zeroVec id2.dim :=
  ⟨by norm_num [greatestValue, max_def],
   (cg_convergence_check_zero_rhs id2 [1, 1] 2 neverCancel).1
     (by norm_num [greatestValue, max_def])⟩

/-- C7: cancellation is polled only at the iteration boundary, after the
iteration's bookkeeping; if the signal is already observed at the end of
the first iteration, the returned solution is at most one CG iteration
beyond the zero vector: the zero vector itself when the loop never runs,
converges at once or degenerates, and otherwise the single-step update
`0 + optimalDistance · b`. -/
theorem cg_cancel_first_iteration (t : LinTran) (b : Vec) (prec : ℚ)
    (cancel : ℕ → Bool) (h : cancel 0 = true) :
    SolveStoppable t b prec cancel =
      if t.dim = 0 then zeroVec t.dim
      else if greatestValue b ≤ prec then zeroVec t.dim
      else if allZero b then zeroVec t.dim
      else vadd (zeroVec t.dim) (vscale (vdot b b / vdot b (t.apply b)) b) := by
  simp only [SolveStoppable, initState]
  cases hdim : t.dim with
  | zero => rw [solveLoop_zero]; simp
  | succ m =>
    rw [solveLoop_succ]
    by_cases hgv : greatestValue b ≤ prec
    · simp [cgStep, hgv]
    · by_cases hz : allZero b
      · simp [cgStep, updateDirection, hgv, hz]
      · simp [cgStep, updateDirection, hgv, hz, h]

/-- Witness for C7: a signal triggered from the start returns the
one-iteration solution. -/
theorem cg_cancel_first_iteration_witness :
    (fun _ : ℕ => true) 0 = true ∧
    SolveStoppable id2 [3, 4] 0 (fun _ => true) = [3, 4] :=
  ⟨rfl, by
    have h := cg_cancel_first_iteration id2 [3, 4] 0 (fun _ => true) rfl
    rw [h]
    norm_num [id2, zeroVec, greatestValue, allZero, vdot, vadd, vscale,
      max_def, List.replicate_succ]⟩

/-- C10: if `prec` is non-negative and the convergence check fails at the
first loop iteration, then the degenerate all-zero break cannot fire
there — the step does not exit through the degenerate path — and the
`lastResidualDot` set by the first iteration is strictly positive. -/
theorem cg_first_iteration_not_degenerate (t : LinTran) (b : Vec)
    (prec : ℚ) (st : CGState) (h0 : 0 ≤ prec)
    (h1 : ¬ greatestValue st.residual ≤ prec) :
    (∀ s, cgStep t b prec 0 st ≠ .done .degenerate s) ∧
    0 < (updateDirection 0 st).2 := by
  have hz : ¬ (allZero st.residual = true) := by
    intro hz
    exact h1 (le_trans
      (le_of_eq (greatestValue_of_zeros _ ((allZero_iff _).mp hz))) h0)
  have hex : ∃ x ∈ st.residual, x ≠ 0 := by
    by_contra hc
    push_neg at hc
    exact hz ((allZero_iff _).mpr hc)
  constructor
  · intro s
    simp [cgStep, updateDirection, h1, hz]
  · simpa [updateDirection] using vdot_self_pos st.residual hex

/-- Witness for C10 at the initial state of the `id2`, `b = [3, 4]` run. -/
theorem cg_first_iteration_not_degenerate_witness :
    (0 : ℚ) ≤ 0 ∧
    ¬ greatestValue (initState id2 [3, 4]).residual ≤ 0 ∧
    ((∀ s, cgStep id2 [3, 4] 0 0 (initState id2 [3, 4]) ≠ .done .degenerate s) ∧
      0 < (updateDirection 0 (initState id2 [3, 4])).2) :=
  ⟨le_rfl, by norm_num [initState, greatestValue, max_def],
   cg_first_iteration_not_degenerate id2 [3, 4] 0 (initState id2 [3, 4]) le_rfl
     (by norm_num [initState, greatestValue, max_def])⟩

/-- C4: `residualUpdateFrequency` is the fixed constant `20`; the code's
recomputation guard `i ≠ 0 ∧ i % residualUpdateFrequency = 0` holds
exactly on the positive multiples of the frequency; on those iterations
the new residual is the direct recomputation `b − T·solution` (with the
updated solution), and on every other iteration it is the incremental
update `residual − optimalDistance · (T·conjVec)`. -/
theorem cg_residual_update_schedule (t : LinTran) (b : Vec) (prec : ℚ)
    (i : ℕ) (st st' : CGState) (h : cgStep t b prec i st = .next st') :
    residualUpdateFrequency = 20 ∧
    ((i ≠ 0 ∧ i % residualUpdateFrequency = 0) ↔
      ∃ k, 0 < k ∧ i = residualUpdateFrequency * k) ∧
    ((∃ k, 0 < k ∧ i = residualUpdateFrequency * k) →
      st'.residual = vadd (vscale (-1) (t.apply st'.solution)) b) ∧
    (¬ (∃ k, 0 < k ∧ i = residualUpdateFrequency * k) →
      st'.residual =
        vadd st.residual
          (vscale
            (-(vdot (updateDirection i st).1 st.residual /
                vdot (updateDirection i st).1
                  (t.apply (updateDirection i st).1)))
            (t.apply (updateDirection i st).1))) := by
  have hfreq : residualUpdateFrequency = 20 := rfl
  have hiff : (i ≠ 0 ∧ i % residualUpdateFrequency = 0) ↔
      ∃ k, 0 < k ∧ i = residualUpdateFrequency * k := by
    constructor
    · rintro ⟨h0, hmod⟩
      obtain ⟨k, hk⟩ := Nat.dvd_of_mod_eq_zero hmod
      refine ⟨k, ?_, hk⟩
      rw [hfreq] at hk
      omega
    · rintro ⟨k, hkpos, rfl⟩
      rw [hfreq]
      exact ⟨by omega, by simp [Nat.mul_mod_right]⟩
  simp only [cgStep] at h
  split at h
  · simp at h
  · split at h
    · simp at h
    · refine ⟨hfreq, hiff, ?_, ?_⟩
      · intro hcond
        rw [if_pos (hiff.mpr hcond)] at h
        injection h with h'
        rw [← h']
      · intro hcond
        rw [if_neg (fun hc => hcond (hiff.mp hc))] at h
        injection h with h'
        rw [← h']

/-- Witness for C4 at iteration `0` of the `id2`, `b = [3, 4]` run
(not a multiple of the frequency: incremental update). -/
theorem cg_residual_update_schedule_witness :
    cgStep id2 [3, 4] 0 0 (initState id2 [3, 4]) =
      .next ⟨[0, 0], [3, 4], [3, 4], 25⟩ ∧
    residualUpdateFrequency = 20 := by
  have hstep : cgStep id2 [3, 4] 0 0 (initState id2 [3, 4]) =
      .next ⟨[0, 0], [3, 4], [3, 4], 25⟩ := by
    norm_num [cgStep, updateDirection, initState, id2, greatestValue, allZero,
      vdot, vadd, vscale, zeroVec, residualUpdateFrequency, max_def,
      List.replicate_succ]
  exact ⟨hstep,
    (cg_residual_update_schedule id2 [3, 4] 0 0 (initState id2 [3, 4])
      ⟨[0, 0], [3, 4], [3, 4], 25⟩ hstep).1⟩

/-! Pointwise vector identities for the residual invariant. -/

theorem vadd_vsub_vscale (b u w : Vec) (d : ℚ) :
    vadd (vsub b u) (vscale (-d) w) = vsub b (vadd u (vscale d w)) := by
  induction b generalizing u w with
  | nil => rfl
  | cons x b ih =>
    cases u with
    | nil => rfl
    | cons y u =>
      cases w with
      | nil => rfl
      | cons z w =>
        simp only [vadd, vsub, vscale, List.zipWith_cons_cons, List.map_cons,
          List.cons.injEq]
        exact ⟨by ring, ih u w⟩

theorem vsub_eq_vadd_neg (u b : Vec) : vadd (vscale (-1) u) b = vsub b u := by
  induction u generalizing b with
  | nil => cases b <;> rfl
  | cons x u ih =>
    cases b with
    | nil => rfl
    | cons y b =>
      simp only [vadd, vsub, vscale, List.map_cons, List.zipWith_cons_cons,
        List.cons.injEq]
      exact ⟨by ring, ih b⟩

theorem vsub_zeroVec (b : Vec) : ∀ n : ℕ, b.length = n → vsub b (zeroVec n) = b := by
  induction b with
  | nil => intro n _; rfl
  | cons x b ih =>
    intro n h
    cases n with
    | zero => simp at h
    | succ m =>
      have hb : b.length = m := by simpa using h
      simp only [zeroVec, List.replicate_succ, vsub, List.zipWith_cons_cons,
        List.cons.injEq]
      refine ⟨by ring, ?_⟩
      simpa [vsub, zeroVec] using ih m hb

theorem vscale_zero_eq (v : Vec) : vscale 0 v = zeroVec v.length := by
  induction v with
  | nil => rfl
  | cons x v ih =>
    simp only [vscale, List.map_cons, zeroVec, List.length_cons,
      List.replicate_succ, List.cons.injEq] at *
    exact ⟨by ring, ih⟩

theorem zeroVec_length (n : ℕ) : (zeroVec n).length = n := by
  simp [zeroVec]

theorem vscale_zeroVec (n : ℕ) : vscale 0 (zeroVec n) = zeroVec n := by
  rw [vscale_zero_eq, zeroVec_length]

theorem apply_zeroVec (t : LinTran) (hlin : IsLinear t) :
    t.apply (zeroVec t.dim) = zeroVec t.dim := by
  have h1 : (zeroVec t.dim).length = t.dim := zeroVec_length t.dim
  have h2 := hlin.2.2 0 (zeroVec t.dim) h1
  rw [vscale_zeroVec] at h2
  rw [h2, vscale_zero_eq, hlin.1 _ h1]

theorem vadd_length (a b : Vec) : (vadd a b).length = min a.length b.length :=
  List.length_zipWith _ _ _

theorem vscale_length (c : ℚ) (v : Vec) : (vscale c v).length = v.length :=
  List.length_map _ _

/-- The loop invariant of `SolveStoppable` under ideal arithmetic:
`residual = b − T·solution`, together with the length bookkeeping needed
to push it through one iteration (`i` is the loop index; `conjVec` is
only constrained after the first iteration). -/
def StInv (t : LinTran) (b : Vec) (i : ℕ) (st : CGState) : Prop :=
  st.residual = vsub b (t.apply st.solution) ∧
  st.residual.length = t.dim ∧
  st.solution.length = t.dim ∧
  (i = 0 ∨ st.conjVec.length = t.dim)

theorem stInv_init (t : LinTran) (b : Vec) (hlin : IsLinear t)
    (hb : b.length = t.dim) : StInv t b 0 (initState t b) := by
  refine ⟨?_, hb, zeroVec_length t.dim, Or.inl rfl⟩
  show b = vsub b (t.apply (zeroVec t.dim))
  rw [apply_zeroVec t hlin, vsub_zeroVec b t.dim hb]

theorem incremental_update_preserves (t : LinTran) (b : Vec)
    (hlin : IsLinear t) (s p : Vec) (d : ℚ) (hs : s.length = t.dim)
    (hp : p.length = t.dim) :
    vadd (vsub b (t.apply s)) (vscale (-d) (t.apply p)) =
      vsub b (t.apply (vadd s (vscale d p))) := by
  rw [vadd_vsub_vscale]
  congr 1
  rw [← hlin.2.2 d p hp,
    ← hlin.2.1 s (vscale d p) hs (by rw [vscale_length, hp])]

theorem cgStep_preserves (t : LinTran) (b : Vec) (prec : ℚ)
    (hlin : IsLinear t) (hb : b.length = t.dim) (i : ℕ) (st st' : CGState)
    (hinv : StInv t b i st) (h : cgStep t b prec i st = .next st') :
    StInv t b (i + 1) st' := by
  obtain ⟨hres, hrlen, hslen, hconj⟩ := hinv
  have hclen : (updateDirection i st).1.length = t.dim := by
    by_cases hi : i = 0
    · simp [updateDirection, hi, hrlen]
    · have hcl : st.conjVec.length = t.dim := hconj.resolve_left hi
      simp [updateDirection, hi, vadd_length, vscale_length, hrlen, hcl]
  have happ : (t.apply (updateDirection i st).1).length = t.dim :=
    hlin.1 _ hclen
  simp only [cgStep] at h
  split at h
  · simp at h
  · split at h
    · simp at h
    · injection h with h'
      subst h'
      have hsol' :
          (vadd st.solution
            (vscale
              (vdot (updateDirection i st).1 st.residual /
                vdot (updateDirection i st).1 (t.apply (updateDirection i st).1))
              (updateDirection i st).1)).length = t.dim := by
        rw [vadd_length, vscale_length, hslen, hclen]
        exact min_self t.dim
      refine ⟨?_, ?_, hsol', Or.inr hclen⟩
      · dsimp only
        split
        · exact vsub_eq_vadd_neg _ b
        · rw [hres]
          exact incremental_update_preserves t b hlin st.solution
            (updateDirection i st).1 _ hslen hclen
      · dsimp only
        split
        · rw [vadd_length, vscale_length, hlin.1 _ hsol', hb]
          exact min_self t.dim
        · rw [vadd_length, vscale_length, hrlen, happ]
          exact min_self t.dim

theorem solveTrace_inv (t : LinTran) (b : Vec) (prec : ℚ) (cancel : ℕ → Bool)
    (hlin : IsLinear t) (hb : b.length = t.dim) :
    ∀ (fuel i : ℕ) (st : CGState), StInv t b i st →
      ∀ q ∈ solveTrace t b prec cancel i fuel st,
        q.2.residual = vsub b (t.apply q.2.solution) := by
  intro fuel
  induction fuel with
  | zero => intro i st _ q hq; simp [solveTrace_zero] at hq
  | succ n ih =>
    intro i st hinv q hq
    rw [solveTrace_succ] at hq
    rcases List.mem_cons.mp hq with rfl | hq'
    · exact hinv.1
    · cases hs : cgStep t b prec i st with
      | done r s => rw [hs] at hq'; simp at hq'
      | next st' =>
        rw [hs] at hq'
        by_cases hc : cancel i
        · simp [hc] at hq'
        · simp only [hc, Bool.false_eq_true, if_false] at hq'
          exact ih (i + 1) st'
            (cgStep_preserves t b prec hlin hb i st st' hinv hs) q hq'

/-- C2: under exact arithmetic and a linear operator, the invariant
`residual = b − T·solution` holds at the initial state, is preserved by
the incremental update `residual − optimalDistance·(T·conjVec)` paired
with `solution + optimalDistance·conjVec`, is re-established exactly by
the direct recomputation `b − T·solution`, and therefore holds at the
top of every loop iteration of `SolveStoppable`. -/
theorem cg_residual_invariant (t : LinTran) (b : Vec) (prec : ℚ)
    (cancel : ℕ → Bool) (hlin : IsLinear t) (hb : b.length = t.dim) :
    (initState t b).residual = vsub b (t.apply (initState t b).solution) ∧
    (∀ (s p : Vec) (d : ℚ), s.length = t.dim → p.length = t.dim →
      vadd (vsub b (t.apply s)) (vscale (-d) (t.apply p)) =
        vsub b (t.apply (vadd s (vscale d p)))) ∧
    (∀ u : Vec, vadd (vscale (-1) u) b = vsub b u) ∧
    (∀ q ∈ solveTrace t b prec cancel 0 t.dim (initState t b),
      q.2.residual = vsub b (t.apply q.2.solution)) :=
  ⟨(stInv_init t b hlin hb).1,
   fun s p d hs hp => incremental_update_preserves t b hlin s p d hs hp,
   fun u => vsub_eq_vadd_neg u b,
   solveTrace_inv t b prec cancel hlin hb t.dim 0 (initState t b)
     (stInv_init t b hlin hb)⟩

/-- Witness for C2 at `T = id2`, `b = [3, 4]`: the identity operator is
linear, and the traced invariant holds on the run. -/
theorem cg_residual_invariant_witness :
    IsLinear id2 ∧ ([3, 4] : Vec).length = id2.dim ∧
    (∀ q ∈ solveTrace id2 [3, 4] 0 neverCancel 0 id2.dim (initState id2 [3, 4]),
      q.2.residual = vsub [3, 4] (id2.apply q.2.solution)) :=
  ⟨⟨fun _ h => h, fun _ _ _ _ => rfl, fun _ _ _ => rfl⟩, rfl,
   (cg_residual_invariant id2 [3, 4] 0 neverCancel
     ⟨fun _ h => h, fun _ _ _ _ => rfl, fun _ _ _ => rfl⟩ rfl).2.2.2⟩

end Conjgrad
